import Mathlib

/-!
Verification of the markdown-exec nested-rendering engine.

Shallow embedding of `src/markdown_exec/rendering.py` and
`src/markdown_exec/extension.py`.  XML element trees
(`xml.etree.ElementTree.Element`) are modelled by the inductive `Element`;
Python strings are Lean `String`s (or `List Char` where character-level
reasoning is needed); Python dicts that are used as association tables are
modelled as association lists; Python list objects that are shared by
reference between the orchestrator and the shadow renderers are modelled by
indices (`Nat`) into an explicit store, so that the aliasing behaviour of the
source is preserved.
-/

/-- Model of `xml.etree.ElementTree.Element`: tag, attributes (`attrib`),
`text`, `tail` and the list of children.  `text`/`tail` are `Option` because
ElementTree uses `None` for absent text. -/
inductive Element where
  | mk (tag : String) (attrib : List (String × String)) (text : Option String)
       (tail : Option String) (children : List Element)

/-- The element's tag. -/
def Element.tag : Element → String
  | .mk t _ _ _ _ => t

/-- The element's attribute list (models the `attrib` dict; lookups take the
first binding, as a dict has unique keys). -/
def Element.attrib : Element → List (String × String)
  | .mk _ a _ _ _ => a

/-- The element's text (`el.text`). -/
def Element.text : Element → Option String
  | .mk _ _ x _ _ => x

/-- The element's tail text (`el.tail`). -/
def Element.tail : Element → Option String
  | .mk _ _ _ x _ => x

/-- The element's children (`list(el)`). -/
def Element.children : Element → List Element
  | .mk _ _ _ _ c => c

/-- `el.get(key)`: attribute lookup, `None` when absent. -/
def Element.get (el : Element) (key : String) : Option String :=
  List.lookup key el.attrib

/-- Replace the children of an element, keeping everything else. -/
def Element.withChildren : Element → List Element → Element
  | .mk t a x l _, c => .mk t a x l c

/-- Replace the text of an element, keeping everything else. -/
def Element.withText : Element → Option String → Element
  | .mk t a _ l c, x => .mk t a x l c

/-- Replace the tail of an element, keeping everything else. -/
def Element.withTail : Element → Option String → Element
  | .mk t a x _ c, l => .mk t a x l c

mutual

/-- `el.iter()`: the element followed by all descendants, in document
(pre-)order. -/
def iterPre : Element → List Element
  | .mk t a x l c => .mk t a x l c :: iterPreL c

/-- `iterPre` mapped over a list of elements (helper for the nested
recursion). -/
def iterPreL : List Element → List Element
  | [] => []
  | x :: xs => iterPre x ++ iterPreL xs

end

/-! ## `RemoveHeadings` (extension.py lines 57-73) -/

/-- The test `el.tag == "div" and el.get("class") == "markdown-exec"` used by
`RemoveHeadings.run` to recognise a marker container. -/
def isMarker (el : Element) : Bool :=
  el.tag == "div" && el.get "class" == some "markdown-exec"

/-- Number of marker containers anywhere in a tree (observable used by the
theorems). -/
def countMarkers (e : Element) : Nat :=
  (List.filter (fun x => isMarker x) (iterPre e)).length

/-- `el.tail = (el.tail or "") + carry_text` (and similarly for `text`):
append `t` to the element's tail. -/
def extendTail (el : Element) (t : String) : Element :=
  el.withTail (some (el.tail.getD "" ++ t))

/-- One step of the `for el in reversed(root)` loop of `RemoveHeadings.run`,
written as a fold from the right (the Python loop visits the last child
first).  The state is the list of children kept so far together with the
`carry_text` buffer. -/
def removeStep (el : Element) (st : List Element × String) : List Element × String :=
  if isMarker el then
    (st.1, el.text.getD "" ++ st.2)
  else if st.2 = "" then
    (el :: st.1, st.2)
  else
    (extendTail el st.2 :: st.1, "")

/-- `RemoveHeadings.run(root)`: scan the direct children of `root` in reverse
order, drop marker containers while carrying their text, flush the carry onto
the tail of the next non-marker child, and finally onto `root.text` if the
carry survives the loop. -/
def removeHeadingsRun (root : Element) : Element :=
  let st := root.children.foldr removeStep ([], "")
  let root1 := root.withChildren st.1
  if st.2 = "" then root1
  else root1.withText (some (root.text.getD "" ++ st.2))

/-- Concatenated `text` of the leading run of marker containers of a child
list (specification-side description of where the carry buffer ends up). -/
def markerRunText : List Element → String
  | [] => ""
  | el :: rest => if isMarker el then el.text.getD "" ++ markerRunText rest else ""

/-- Specification-side description of `RemoveHeadings.run` on the child list:
every marker container is dropped, and each kept child receives, appended to
its tail, the concatenated text of the marker run immediately following it. -/
def specRemove : List Element → List Element
  | [] => []
  | el :: rest =>
    if isMarker el then specRemove rest
    else (if markerRunText rest = "" then el else extendTail el (markerRunText rest)) :: specRemove rest

/-! ## `InsertHeadings` (extension.py lines 32-54)

`InsertHeadings.run` walks the tree and, for every element whose text is a
key of `self.md.stash`, appends a `<div class="markdown-exec">` filled with
`self.headings[self.md.stash[el.text]]`.  The `headings` table (the
"OutputAssociationTable": converted output → harvested heading list) is the
`headings` attribute of the transform; `self.md.stash` is an attribute of the
host `markdown.Markdown` instance.  Nothing in this repository (and nothing
in the `markdown` library, whose class has `htmlStash` but no `stash`
attribute) ever defines or populates `md.stash`, so it is modelled here as an
association-list environment that is empty in every reachable run; the
`KeyError` branch (a stash value that is not a key of the table) is modelled
as a no-op, and is equally unreachable with an empty stash. -/

/-- The marker container `Element("div", {"class": "markdown-exec"})` with the
given heading records appended (`div.extend(...)` keeps the same element
objects, i.e. the very list stored in the table). -/
def mkMarkerDiv (hs : List Element) : Element :=
  .mk "div" [("class", "markdown-exec")] none none hs

mutual

/-- The body of the `for el in root.iter()` loop of `InsertHeadings.run`:
process one element (append the marker div when `el.text` is a key of
`mdStash` and the stashed markup is a key of `tbl`) and recurse into the
children. -/
def insertEl (tbl : List (String × List Element)) (mdStash : List (String × String)) :
    Element → Element
  | .mk t a x l c =>
    let cs := insertElL tbl mdStash c
    match x.bind (fun s => (List.lookup s mdStash).bind (fun m => List.lookup m tbl)) with
    | some hs => .mk t a x l (cs ++ [mkMarkerDiv hs])
    | none => .mk t a x l cs

/-- `insertEl` mapped over the children. -/
def insertElL (tbl : List (String × List Element)) (mdStash : List (String × String)) :
    List Element → List Element
  | [] => []
  | e :: es => insertEl tbl mdStash e :: insertElL tbl mdStash es

end

/-- `InsertHeadings.run(root)`: no-op when the headings table is empty
(`if not self.headings: return`), otherwise the loop above. -/
def insertHeadingsRun (tbl : List (String × List Element))
    (mdStash : List (String × String)) (root : Element) : Element :=
  if tbl.isEmpty then root else insertEl tbl mdStash root

/-! ## Treeprocessor registry (extension.py lines 79-96)

`markdown.util.Registry` runs registered items in order of *decreasing*
priority (highest first); `markdown.extensions.toc` registers the
table-of-contents treeprocessor under the name `"toc"` with priority 5.  The
registry is modelled as a list of (name, priority) pairs. -/

/-- `Registry.register(item, name, priority)`: deregister any item with the
same name, then add the new one. -/
def registryRegister (reg : List (String × Nat)) (nm : String) (p : Nat) :
    List (String × Nat) :=
  reg.filter (fun x => !(x.1 == nm)) ++ [(nm, p)]

/-- `InsertHeadings.name`. -/
def insertName : String := "markdown_exec_insert_headings"

/-- `RemoveHeadings.name`. -/
def removeName : String := "markdown_exec_remove_headings"

/-- `MarkdownExecExtension.extendMarkdown`: register `InsertHeadings` with
priority 3 and `RemoveHeadings` with priority 4 into the host registry. -/
def extendMarkdown (reg : List (String × Nat)) : List (String × Nat) :=
  registryRegister (registryRegister reg insertName 3) removeName 4

/-- Insert into a list sorted by decreasing priority. -/
def sortIns (x : String × Nat) : List (String × Nat) → List (String × Nat)
  | [] => [x]
  | y :: ys => if x.2 > y.2 then x :: y :: ys else y :: sortIns x ys

/-- The order in which `Markdown.convert` applies the registered
treeprocessors: names sorted by decreasing priority. -/
def runOrder (reg : List (String × Nat)) : List String :=
  (reg.foldr sortIns []).map Prod.fst

/-! ## `_HeadingReportingTreeprocessor` (rendering.py lines 135-156) -/

/-- `re.compile("[Hh][1-6]").fullmatch(tag)`: the tag is exactly two
characters, `H` or `h` followed by a digit of the class `[1-6]`. -/
def isHeadingTag (t : String) : Bool :=
  match t.data with
  | [c1, c2] => (c1 == 'H' || c1 == 'h') && ['1', '2', '3', '4', '5', '6'].contains c2
  | _ => false

/-- The permalink undo on the copied heading: if
`len(el) > 0 and el[-1].get("class") == permalink_class`, delete the last
child of the copy (`pc` models `self.md.treeprocessors["toc"].permalink_class`,
a string obtained from the host's toc transform). -/
def stripPermalink (pc : String) (el : Element) : Element :=
  match el.children.getLast? with
  | some lastc => if lastc.get "class" = some pc then el.withChildren el.children.dropLast else el
  | none => el

/-- One iteration of the loop of `_HeadingReportingTreeprocessor.run`: append
the processed copy to the accumulator when the tag is a heading. -/
def headingStep (pc : String) (acc : List Element) (el : Element) : List Element :=
  if isHeadingTag el.tag then acc ++ [stripPermalink pc el] else acc

/-- `_HeadingReportingTreeprocessor.run(root)`: walk `root.iter()` appending
processed heading copies to the shared accumulator `acc`.  The source only
mutates the copies (`el = copy.copy(el)`), so the tree is returned
unchanged; the pair makes that frame condition explicit. -/
def headingReportRun (pc : String) (root : Element) (acc : List Element) :
    Element × List Element :=
  (root, (iterPre root).foldl (headingStep pc) acc)

/-! ## Python string helpers

The string functions of `rendering.py` (`str.split("\n")`, `"\n".join`,
`str.strip()`, `str.replace`, `textwrap.indent`) are modelled at the
character-list level. -/

/-- Characters stripped by Python's `str.strip()` (the ASCII whitespace
set). -/
def isPyWs (c : Char) : Bool :=
  c == ' ' || c == '\t' || c == '\n' || c == '\r' || c == '\x0b' || c == '\x0c'

/-- `str.strip()`: drop leading and trailing whitespace characters. -/
def pyStrip (l : List Char) : List Char :=
  ((l.dropWhile isPyWs).reverse.dropWhile isPyWs).reverse

/-- Helper for `split("\n")`: first line and remaining lines. -/
def splitNlA : List Char → List Char × List (List Char)
  | [] => ([], [])
  | c :: rest =>
    let st := splitNlA rest
    if c = '\n' then ([], st.1 :: st.2) else (c :: st.1, st.2)

/-- `s.split("\n")`: always returns at least one (possibly empty) line, like
Python's `str.split` with an explicit separator. -/
def splitNl (l : List Char) : List (List Char) :=
  (splitNlA l).1 :: (splitNlA l).2

/-- `"\n".join(lines)`. -/
def joinNl : List (List Char) → List Char
  | [] => []
  | [l] => l
  | l :: ls => l ++ '\n' :: joinNl ls

/-- `pat` occurs literally in `s` (Python's `in` operator on strings). -/
def Occurs (pat s : List Char) : Prop :=
  ∃ a b, s = a ++ pat ++ b

/-- First-occurrence search: `some (a, b)` splits `s` as `a ++ pat ++ b` at
the leftmost occurrence of `pat`, `none` when `pat` does not occur. -/
def firstSplit (pat : List Char) : List Char → Option (List Char × List Char)
  | [] => if pat.isPrefixOf [] then some ([], []) else none
  | c :: rest =>
    if pat.isPrefixOf (c :: rest) then some ([], (c :: rest).drop pat.length)
    else (firstSplit pat rest).map (fun p => (c :: p.1, p.2))

/-- Decidable occurrence test, via `firstSplit`. -/
def containsSub (pat s : List Char) : Bool :=
  (firstSplit pat s).isSome

/-- Python's `str.replace` for a non-empty pattern: scan left to right,
substituting the replacement at each (leftmost, non-overlapping) occurrence.
The fuel argument (always instantiated with the length of the string, which
bounds the number of steps) makes the recursion structural, so that concrete
instances reduce inside the kernel.  Only called with a non-empty `pat`
(see `pyReplace`). -/
def pyReplaceFuel (pat repl : List Char) : Nat → List Char → List Char
  | _, [] => []
  | 0, s => s
  | f + 1, c :: rest =>
    if pat.isPrefixOf (c :: rest) then
      repl ++ pyReplaceFuel pat repl f (rest.drop (pat.length - 1))
    else c :: pyReplaceFuel pat repl f rest

/-- `pyReplaceFuel` with enough fuel to finish the scan. -/
def pyReplaceCore (pat repl s : List Char) : List Char :=
  pyReplaceFuel pat repl s.length s

/-- Python's `str.replace(pat, repl)` (all occurrences; an empty pattern
matches at every position, inserting `repl` around every character). -/
def pyReplace (s pat repl : List Char) : List Char :=
  if pat = [] then repl ++ s.flatMap (fun c => c :: repl)
  else pyReplaceCore pat repl s

/-- String-level wrapper for `pyReplace`. -/
def pyReplaceS (s pat repl : String) : String :=
  ⟨pyReplace s.data pat.data repl.data⟩

/-! ## `_hide_lines`, `code_block`, `tabbed`, `add_source`
(rendering.py lines 17-99) -/

/-- The magic comment recognised by `_hide_lines`. -/
def hideMarker : List Char := "markdown-exec: hide".data

/-- `_hide_lines(source)`: drop every line containing the marker, join the
rest with newlines, and strip the result. -/
def hideLines (source : String) : String :=
  ⟨pyStrip (joinNl ((splitNl source.data).filter (fun l => !containsSub hideMarker l)))⟩

/-- `code_block(language, code, **options)`. -/
def code_block (language : String) (code : String) (extra : List (String × String)) : String :=
  let opts := String.intercalate " " (extra.map (fun p => p.1 ++ "=\"" ++ p.2 ++ "\""))
  "````````" ++ language ++ " " ++ opts ++ "\n" ++ code ++ "\n````````"

/-- `textwrap.indent(text, prefixStr)` with the default predicate: add the
prefix to every line that contains non-whitespace characters. -/
def indentPy (text prefixStr : String) : String :=
  ⟨joinNl ((splitNl text.data).map
    (fun l => if pyStrip l = [] then l else prefixStr.data ++ l))⟩

/-- `tabbed(*tabs)`: format tabs for `pymdownx.tabbed`; each tab contributes
`=== "title"`, the body indented by four spaces, and a blank line. -/
def tabbed (tabs : List (String × String)) : String :=
  String.intercalate "\n" (tabs.flatMap (fun p =>
    let title := ⟨pyStrip (pyReplace p.1.data ['\\', '|'] ['|'])⟩
    ["=== \"" ++ title ++ "\"", indentPy p.2 "    ", ""]))

/-- The set of supported `location` values of `add_source`. -/
def supportedLocations : List String :=
  ["above", "below", "tabbed-left", "tabbed-right", "material-block", "console"]

/-- `add_source(source=..., location=..., output=..., language=..., tabs=...,
**extra)`: filter the source through `_hide_lines`, then assemble according
to `location`; unsupported locations raise
`ValueError(f"unsupported location for sources: {location}")`. -/
def add_source (source location output language : String) (tabs : String × String)
    (extra : List (String × String)) : Except String String :=
  let src := hideLines source
  if location = "console" then .ok (code_block language (src ++ "\n" ++ output) extra)
  else
    let source_block := code_block language src extra
    if location = "above" then .ok (source_block ++ "\n\n" ++ output)
    else if location = "below" then .ok (output ++ "\n\n" ++ source_block)
    else if location = "material-block" then
      .ok (source_block ++ "\n\n<div class=\"result\" style=\"margin-top: 0;\" markdown=\"1\" >\n\n"
        ++ output ++ "\n\n</div>")
    else if location = "tabbed-left" then .ok (tabbed [(tabs.1, source_block), (tabs.2, output)])
    else if location = "tabbed-right" then .ok (tabbed [(tabs.2, output), (tabs.1, source_block)])
    else .error ("unsupported location for sources: " ++ location)

/-- `Except.isOk` (defined here to keep the file self-contained). -/
def isOkE {ε α : Type} : Except ε α → Bool
  | .ok _ => true
  | .error _ => false

/-! ## `_MarkdownConverter` (rendering.py lines 175-245)

The orchestrator holds `_counter`, `_level`, the per-depth renderer stack
`_md_stack`, and the heading accumulator `_headings`.  The accumulator and
the values of the host-side table `InsertHeadings.headings` are Python list
*objects* shared by reference: they are modelled as indices into an explicit
`store`, so the source's aliasing (each `_mimic`-created renderer keeps the
list object that `self._headings` pointed to at its creation, while the
`headings` property *rebinds* `self._headings` to a fresh list) is
reproduced exactly. -/

/-- A shadow renderer created by `_mimic`: it holds the reference to the
heading list its `_HeadingReportingTreeprocessor` appends to, and the
`id_prefix` of its `_IdPrependingTreeprocessor` (source attribute name:
`id_prefix`). -/
structure Renderer where
  headingsRef : Nat
  idPref : String

/-- The mutable state of the `_MarkdownConverter` singleton together with the
host-side `InsertHeadings.headings` table.  `store` is the heap of Python
list objects; `headingsRef` is the list `self._headings` currently points
to; `table` maps converted output to the *reference* of the drained list. -/
structure ConvState where
  counter : Nat
  level : Nat
  mdStack : List Renderer
  headingsRef : Nat
  store : List (List Element)
  table : List (String × Nat)

/-- The state produced by `_MarkdownConverter.__init__` (plus the initial
empty `_headings` list in the store). -/
def initState : ConvState :=
  { counter := 0, level := 0, mdStack := [], headingsRef := 0, store := [[]], table := [] }

/-- Dereference a list object. -/
def storeGet (s : ConvState) (r : Nat) : List Element :=
  s.store.getD r []

/-- `list.extend`: append elements to the list object `r` points to. -/
def storeApp (s : ConvState) (r : Nat) (hs : List Element) : ConvState :=
  { s with store := s.store.set r (s.store.getD r [] ++ hs) }

/-- Allocate a fresh empty list object (`self._headings = []`). -/
def allocRef (s : ConvState) : Nat × ConvState :=
  (s.store.length, { s with store := s.store ++ [[]] })

/-- Update the element at index `i` (no-op when out of range). -/
def modifyAt (f : Renderer → Renderer) : Nat → List Renderer → List Renderer
  | _, [] => []
  | 0, x :: xs => f x :: xs
  | n + 1, x :: xs => x :: modifyAt f n xs

/-- Set the `id_prefix` of the renderer at stack index `i`
(`md.treeprocessors[_IdPrependingTreeprocessor.name].id_prefix = p`). -/
def setPref (s : ConvState) (i : Nat) (p : String) : ConvState :=
  { s with mdStack := modifyAt (fun r => { r with idPref := p }) i s.mdStack }

/-- Read the `id_prefix` of the renderer at stack index `i`. -/
def prefAt (s : ConvState) (i : Nat) : Option String :=
  (s.mdStack.get? i).map Renderer.idPref

/-- Dict assignment `d[k] = v` on the host table. -/
def setAssoc (tbl : List (String × Nat)) (k : String) (v : Nat) : List (String × Nat) :=
  if (List.lookup k tbl).isSome then tbl.map (fun p => if p.1 = k then (k, v) else p)
  else tbl ++ [(k, v)]

/-- Dereferenced view of the host table (what `InsertHeadings` would read for
a given converted output). -/
def lookupTable (s : ConvState) (k : String) : Option (List Element) :=
  (List.lookup k s.table).map (storeGet s)

/-- Little-endian base-10 digits, with fuel (always instantiated with a
bound on the number, which makes the recursion structural so that concrete
tokens reduce inside the kernel).  Agrees with `Nat.digits 10` when the fuel
suffices (`decDigits_eq_digits`). -/
def decDigits : Nat → Nat → List Nat
  | 0, _ => []
  | f + 1, n => if n = 0 then [] else n % 10 :: decDigits f (n / 10)

/-- Decimal numeral of a natural number (model of Python's `f"{n}"`). -/
def decRepr (n : Nat) : List Char :=
  if n = 0 then ['0'] else ((decDigits n n).map Nat.digitChar).reverse

/-- The namespace token assigned on line 204: `f"exec-{self._counter}--"`. -/
def execToken (n : Nat) : String :=
  ⟨"exec-".data ++ decRepr n ++ "--".data⟩

/-- `self._md` (property, lines 236-241): return the renderer at the current
level, lazily appending `_mimic(self._md_ref, self._headings)` renderers —
each capturing the *current* `self._headings` list object, with an empty
`id_prefix` — until the stack is long enough. -/
def getMd (s : ConvState) : Nat × ConvState :=
  if s.level < s.mdStack.length then (s.level, s)
  else (s.level,
    { s with mdStack := s.mdStack ++
        List.replicate (s.level + 1 - s.mdStack.length) ⟨s.headingsRef, ""⟩ })

/-- Lines 199-205 of `convert`: resolve the renderer for the current level,
increment `_level`, install the namespace token as the renderer's
`id_prefix`, increment `_counter`.  Returns the renderer's stack index, the
installed token and the state in which `md.convert(text)` then runs. -/
def preConvert (s : ConvState) : Nat × String × ConvState :=
  let rs := getMd s
  let s2 := { rs.2 with level := rs.2.level + 1 }
  let tok := execToken s2.counter
  let s3 := setPref s2 rs.1 tok
  (rs.1, tok, { s3 with counter := s3.counter + 1 })

/-- The underlying `md.convert(text)` call: it sees the text and the
installed namespace token, may transform the whole converter state (a nested
code block re-enters `convert`), and either raises or returns the converted
HTML together with the headings its `_HeadingReportingTreeprocessor`
harvested (which the renderer appends to its captured list). -/
def Oracle : Type :=
  String → String → ConvState → Except String (String × List Element) × ConvState

/-- Lines 213-215 of `convert`: restore stashed HTML with plain string
replacement, one placeholder at a time. -/
def restoreStash (s : String) (stash : List (String × String)) : String :=
  stash.foldl (fun acc kv => pyReplaceS acc kv.1 kv.2) s

/-- `_MarkdownConverter.convert(text, stash)` (lines 189-220).  Returns the
result (`Markup` or the propagated error), the final state, and the
namespace token that was installed for the call.  The `finally` block
(decrement `_level`, reset the renderer's `id_prefix` to `""`) runs on both
paths; on success the harvested headings are appended to the list captured
by the renderer at its creation, the stash is restored, and line 218 records
the converted text in the host table with the list object drained from
`self._headings` (the `headings` property rebinds `self._headings` to a
fresh list). -/
def convert (o : Oracle) (text : String) (stash : List (String × String))
    (s : ConvState) : Except String String × ConvState × String :=
  let p := preConvert s
  match o text p.2.1 p.2.2 with
  | (.error e, s5) =>
    (.error e, setPref { s5 with level := s5.level - 1 } p.1 "", p.2.1)
  | (.ok (html, hs), s5) =>
    let ref := ((s5.mdStack.get? p.1).map Renderer.headingsRef).getD 0
    let s6 := storeApp s5 ref hs
    let s7 := setPref { s6 with level := s6.level - 1 } p.1 ""
    let conv := restoreStash html stash
    let v := s7.headingsRef
    let ar := allocRef s7
    let s9 := { ar.2 with headingsRef := ar.1, table := setAssoc ar.2.table conv v }
    (.ok conv, s9, p.2.1)

/-! ## Concrete fixtures used by the closed theorems -/

/-- A concrete harvested heading (as recorded during a first `convert`
call). -/
def hA : Element := .mk "h1" [("id", "exec-0--a")] (some "A") none []

/-- A concrete harvested heading (as recorded during a second `convert`
call). -/
def hB : Element := .mk "h2" [("id", "exec-1--b")] (some "B") none []

/-- A pure oracle: converting `"a"` yields html `"A"` and harvests `hA`;
anything else yields `"B"` and harvests `hB`.  No nested calls, no
failures. -/
def oracleAB : Oracle :=
  fun t _p st => (.ok (if t = "a" then ("A", [hA]) else ("B", [hB])), st)

/-- The state after two consecutive top-level calls
`convert("a")`; `convert("b")` from a fresh converter. -/
def c1run : ConvState :=
  (convert oracleAB "b" [] (convert oracleAB "a" [] initState).2.1).2.1

/-- A pure oracle for the nested-invocation scenario: the inner conversion. -/
def innerOracle : Oracle :=
  fun _t _p st => (.ok ("ih", []), st)

/-- An oracle that models a fragment whose execution re-enters `convert`
(a nested executed block): it performs a full inner `convert` call and
reports the inner call's namespace token as its output HTML, so the token
minted at depth 1 is observable in the outer result. -/
def outerOracle : Oracle :=
  fun _t _p st =>
    let r := convert innerOracle "inner" [] st
    (.ok (r.2.2, []), r.2.1)

/-- The table recorded for the `InsertHeadings` divergence theorem: one
converted output associated with one harvested heading. -/
def tbl0 : List (String × List Element) := [("KEY", [hA])]

/-- A host tree containing one element whose text is exactly the recorded
key `"KEY"`. -/
def tree0 : Element :=
  .mk "div" [] none none [.mk "p" [] (some "KEY") none []]

/-- A tree whose marker container is nested one level deeper than the root's
children (a heading fragment rendered inside, e.g., a block quote). -/
def nestedMarkerTree : Element :=
  .mk "div" [] none none
    [.mk "p" [] (some "x") none [.mk "div" [("class", "markdown-exec")] (some "HDR") none []]]

/-! # Theorems -/

theorem isMarker_extendTail (el : Element) (t : String) :
    isMarker (extendTail el t) = isMarker el := by
  cases el
  rfl

theorem removeFold_eq_spec (cs : List Element) :
    cs.foldr removeStep ([], "") = (specRemove cs, markerRunText cs) := by
  induction cs with
  | nil => rfl
  | cons el rest ih =>
    simp only [List.foldr_cons, ih, removeStep, specRemove, markerRunText]
    by_cases hm : isMarker el
    · simp [hm]
    · simp only [hm, if_neg, Bool.false_eq_true, if_false]
      by_cases hc : markerRunText rest = "" <;> simp [hc]

theorem specRemove_no_marker (cs : List Element) :
    ∀ el ∈ specRemove cs, isMarker el = false := by
  induction cs with
  | nil => intro el h; cases h
  | cons x rest ih =>
    intro el h
    simp only [specRemove] at h
    by_cases hm : isMarker x
    · rw [if_pos hm] at h; exact ih el h
    · rw [if_neg hm] at h
      rcases List.mem_cons.mp h with h1 | h1
      · subst h1
        by_cases hc : markerRunText rest = ""
        · rw [if_pos hc]; exact Bool.eq_false_iff.mpr hm
        · rw [if_neg hc, isMarker_extendTail]; exact Bool.eq_false_iff.mpr hm
      · exact ih el h1

theorem withChildren_fields (el : Element) (c : List Element) :
    (el.withChildren c).children = c ∧ (el.withChildren c).tag = el.tag
    ∧ (el.withChildren c).attrib = el.attrib ∧ (el.withChildren c).text = el.text
    ∧ (el.withChildren c).tail = el.tail := by
  cases el
  exact ⟨rfl, rfl, rfl, rfl, rfl⟩

theorem withText_fields (el : Element) (x : Option String) :
    (el.withText x).children = el.children ∧ (el.withText x).tag = el.tag
    ∧ (el.withText x).attrib = el.attrib ∧ (el.withText x).text = x
    ∧ (el.withText x).tail = el.tail := by
  cases el
  exact ⟨rfl, rfl, rfl, rfl, rfl⟩

/-- Claim C4 counterexample: on a tree whose marker container is nested one
level below the root's children, `RemoveHeadings.run` leaves one marker
container in the final output, so the transform does not remove marker
containers from *every* tree. -/
theorem c4_counterexample : countMarkers (removeHeadingsRun nestedMarkerTree) = 1 := by
  decide

/-- Claim C4 (amended): `RemoveHeadings.run` leaves zero marker containers
among the *direct children* of the root (markers nested deeper are outside
the transform's scope); every removed marker's text content is appended to
the tail of the nearest preceding non-marker sibling (equivalently: each kept
child's tail is extended with the concatenated text of the marker run
immediately following it), and the text of a leading marker run, which has no
preceding sibling, is appended to the root's own text; everything else about
the root is unchanged. -/
theorem c4_remove_headings (root : Element) :
    ((removeHeadingsRun root).children.all (fun e => !isMarker e)) = true
    ∧ (removeHeadingsRun root).children = specRemove root.children
    ∧ (removeHeadingsRun root).text =
        (if markerRunText root.children = "" then root.text
         else some (root.text.getD "" ++ markerRunText root.children))
    ∧ (removeHeadingsRun root).tag = root.tag
    ∧ (removeHeadingsRun root).attrib = root.attrib
    ∧ (removeHeadingsRun root).tail = root.tail := by
  have hall : (specRemove root.children).all (fun e => !isMarker e) = true := by
    rw [List.all_eq_true]
    intro x hx
    rw [Bool.not_eq_true']
    exact specRemove_no_marker root.children x hx
  unfold removeHeadingsRun
  rw [removeFold_eq_spec]
  by_cases hc : markerRunText root.children = ""
  · simp only [hc, if_pos rfl, if_true]
    refine ⟨?_, ?_, ?_, ?_, ?_, ?_⟩
    · rw [(withChildren_fields root _).1]; exact hall
    · exact (withChildren_fields root _).1
    · exact (withChildren_fields root _).2.2.2.1
    · exact (withChildren_fields root _).2.1
    · exact (withChildren_fields root _).2.2.1
    · exact (withChildren_fields root _).2.2.2.2
  · rw [if_neg hc, if_neg hc]
    refine ⟨?_, ?_, ?_, ?_, ?_, ?_⟩
    · rw [(withText_fields _ _).1, (withChildren_fields root _).1]; exact hall
    · rw [(withText_fields _ _).1]; exact (withChildren_fields root _).1
    · exact (withText_fields _ _).2.2.2.1
    · rw [(withText_fields _ _).2.1]; exact (withChildren_fields root _).2.1
    · rw [(withText_fields _ _).2.2.1]; exact (withChildren_fields root _).2.2.1
    · rw [(withText_fields _ _).2.2.2.2]; exact (withChildren_fields root _).2.2.2.2

/-- Claim C2: evaluation of the pipeline order on a host registry with the
standard toc treeprocessor (priority 5, plus the usual higher-priority
processors).  `extendMarkdown` registers `InsertHeadings` at priority 3 and
`RemoveHeadings` at priority 4, and the registry runs higher priorities
first, so the actual execution order is toc, then Removal, then Insertion —
not Insertion, toc, Removal as the claim (and the code's own comments
"Right before toc" / "Right after toc") require. -/
theorem c2_pipeline_order :
    runOrder (extendMarkdown [("inline", 20), ("prettify", 10), ("toc", 5)]) =
      ["inline", "prettify", "toc", removeName, insertName] := by
  decide

/-- Claim C3: evaluation of `InsertHeadings.run` at the failing input.  The
table records the key `"KEY"` with one harvested heading and the host tree
contains an element whose text is exactly `"KEY"`, yet the transform leaves
the tree unchanged (no marker container is appended), because the code looks
`el.text` up in `self.md.stash` — which nothing ever populates — instead of
in the headings table.  The claim requires one marker container with the
key's heading records. -/
theorem c3_insert_headings_eval :
    insertHeadingsRun tbl0 [] tree0 = tree0
    ∧ countMarkers (insertHeadingsRun tbl0 [] tree0) = 0
    ∧ (insertHeadingsRun [] [("KEY", "M")] tree0 = tree0) := by
  refine ⟨rfl, by decide, rfl⟩

theorem headingFold_eq (pc : String) (l : List Element) (acc : List Element) :
    l.foldl (headingStep pc) acc =
      acc ++ (l.filter (fun e => isHeadingTag e.tag)).map (stripPermalink pc) := by
  induction l generalizing acc with
  | nil => simp
  | cons x xs ih =>
    simp only [List.foldl_cons, ih, headingStep, List.filter_cons]
    by_cases hx : isHeadingTag x.tag
    · simp [hx]
    · simp [hx]

/-- Claim C8: `_HeadingReportingTreeprocessor.run` leaves the tree it is
given unchanged and appends to the shared accumulator, in document order,
one processed copy of exactly the elements whose tag matches the
case-insensitive heading pattern `[Hh][1-6]` — where processing deletes the
copy's last child exactly when that child's `class` attribute equals the
permalink class obtained from the host's toc transform.  The trailing
conjuncts evaluate the tag test on all twelve heading tags and on
non-heading tags. -/
theorem c8_heading_harvest (pc : String) (root : Element) (acc : List Element) :
    (headingReportRun pc root acc).1 = root
    ∧ (headingReportRun pc root acc).2 =
        acc ++ ((iterPre root).filter (fun e => isHeadingTag e.tag)).map (stripPermalink pc)
    ∧ ([("h1" : String), "h2", "h3", "h4", "h5", "h6", "H1", "H2", "H3", "H4", "H5", "H6"].all
        (fun t => isHeadingTag t)) = true
    ∧ ([("h0" : String), "h7", "H7", "div", "h", "p", "h10", "hx"].all
        (fun t => !isHeadingTag t)) = true := by
  exact ⟨rfl, headingFold_eq pc (iterPre root) acc, by decide, by decide⟩

/-- Claim C9: `add_source` fails with a `ValueError` whose message names the
offending location for every `location` outside
`{above, below, tabbed-left, tabbed-right, material-block, console}` (and,
being a pure function, produces no partial output), and returns assembled
output without raising for every location inside the set. -/
theorem c9_add_source_locations (source location output language : String)
    (tabs : String × String) (extra : List (String × String)) :
    (location ∉ supportedLocations →
      add_source source location output language tabs extra =
        .error ("unsupported location for sources: " ++ location))
    ∧ (location ∈ supportedLocations →
      isOkE (add_source source location output language tabs extra) = true) := by
  constructor
  · intro hns
    simp only [supportedLocations, List.mem_cons, List.not_mem_nil, or_false, not_or] at hns
    obtain ⟨h1, h2, h3, h4, h5, h6⟩ := hns
    unfold add_source
    rw [if_neg h6, if_neg h1, if_neg h2, if_neg h5, if_neg h3, if_neg h4]
  · intro hs
    simp only [supportedLocations, List.mem_cons, List.not_mem_nil, or_false] at hs
    rcases hs with rfl | rfl | rfl | rfl | rfl | rfl <;> rfl

/-- Witness for C9: instantiation at the unsupported location `"sideways"`
and at the supported location `"above"`. -/
theorem c9_add_source_locations_witness :
    add_source "s" "sideways" "o" "python" ("S", "R") [] =
        .error ("unsupported location for sources: " ++ "sideways")
    ∧ isOkE (add_source "s" "above" "o" "python" ("S", "R") []) = true :=
  ⟨(c9_add_source_locations "s" "sideways" "o" "python" ("S", "R") []).1 (by decide),
   (c9_add_source_locations "s" "above" "o" "python" ("S", "R") []).2 (by decide)⟩

theorem isPrefixOf_eq (p : List Char) : ∀ s, p.isPrefixOf s = true ↔ ∃ t, s = p ++ t := by
  induction p with
  | nil => intro s; simp [List.isPrefixOf]
  | cons c cs ih =>
    intro s
    cases s with
    | nil => simp [List.isPrefixOf]
    | cons d ds =>
      simp only [List.isPrefixOf, Bool.and_eq_true, beq_iff_eq, ih, List.cons_append]
      constructor
      · rintro ⟨rfl, t, rfl⟩
        exact ⟨t, rfl⟩
      · rintro ⟨t, h⟩
        injection h with h1 h2
        exact ⟨h1.symm, t, h2⟩

theorem isPrefixOf_nil_false (p : List Char) (hp : p ≠ []) : p.isPrefixOf [] = false := by
  cases p with
  | nil => exact absurd rfl hp
  | cons c cs => rfl

theorem firstSplit_some_split (pat : List Char) :
    ∀ s a b, firstSplit pat s = some (a, b) → s = a ++ pat ++ b := by
  intro s
  induction s with
  | nil =>
    intro a b h
    simp only [firstSplit] at h
    by_cases hp : pat.isPrefixOf []
    · obtain ⟨t, ht⟩ := (isPrefixOf_eq pat []).mp hp
      rw [if_pos hp] at h
      injection h with h1
      injection h1 with ha hb
      subst ha; subst hb
      have : pat = [] := by
        cases pat with
        | nil => rfl
        | cons c cs => simp at ht
      simp [this]
    · rw [if_neg (by simpa using hp)] at h
      exact absurd h (by simp)
  | cons c rest ih =>
    intro a b h
    simp only [firstSplit] at h
    by_cases hp : pat.isPrefixOf (c :: rest)
    · rw [if_pos hp] at h
      injection h with h1
      injection h1 with ha hb
      obtain ⟨t, ht⟩ := (isPrefixOf_eq pat (c :: rest)).mp hp
      subst ha; subst hb
      rw [List.nil_append, ht, List.drop_left]
    · rw [if_neg hp] at h
      cases hfs : firstSplit pat rest with
      | none => rw [hfs] at h; exact absurd h (by simp)
      | some p =>
        rw [hfs] at h
        simp only [Option.map_some'] at h
        injection h with h1
        injection h1 with ha hb
        subst ha; subst hb
        have := ih p.1 p.2 hfs
        rw [List.cons_append, List.cons_append, ← this]

theorem occurs_cons (pat : List Char) (c : Char) (rest : List Char) :
    Occurs pat (c :: rest) ↔ (∃ t, c :: rest = pat ++ t) ∨ Occurs pat rest := by
  constructor
  · rintro ⟨a, b, h⟩
    cases a with
    | nil => exact Or.inl ⟨b, by simpa using h⟩
    | cons x xs =>
      right
      injection h with h1 h2
      exact ⟨xs, b, h2⟩
  · rintro (⟨t, h⟩ | ⟨a, b, h⟩)
    · exact ⟨[], t, by simpa using h⟩
    · exact ⟨c :: a, b, by rw [List.cons_append, List.cons_append, ← h]⟩

theorem firstSplit_none_iff (pat : List Char) :
    ∀ s, firstSplit pat s = none ↔ ¬ Occurs pat s := by
  intro s
  induction s with
  | nil =>
    simp only [firstSplit]
    by_cases hp : pat.isPrefixOf []
    · obtain ⟨t, ht⟩ := (isPrefixOf_eq pat []).mp hp
      have hpat : pat = [] := by
        cases pat with
        | nil => rfl
        | cons c cs => simp at ht
      rw [if_pos hp]
      simp [Occurs, hpat]
    · rw [if_neg hp]
      simp only [true_iff]
      rintro ⟨a, b, h⟩
      have ha : a = [] := by cases a with | nil => rfl | cons x xs => simp at h
      have hb : pat ++ b = [] := by rw [ha] at h; simpa using h.symm
      have : pat = [] := by cases pat with | nil => rfl | cons x xs => simp at hb
      rw [this] at hp
      simp [List.isPrefixOf] at hp
  | cons c rest ih =>
    simp only [firstSplit]
    by_cases hp : pat.isPrefixOf (c :: rest)
    · rw [if_pos hp]
      obtain ⟨t, ht⟩ := (isPrefixOf_eq pat (c :: rest)).mp hp
      simp only [false_iff, not_not, reduceCtorEq]
      exact ⟨[], t, by simpa using ht⟩
    · rw [if_neg hp]
      cases hfs : firstSplit pat rest with
      | none =>
        simp only [Option.map_none', true_iff]
        rw [occurs_cons]
        rintro (⟨t, h⟩ | ho)
        · exact hp ((isPrefixOf_eq pat (c :: rest)).mpr ⟨t, h⟩)
        · exact (ih.mp hfs) ho
      | some p =>
        simp only [Option.map_some', false_iff, not_not, reduceCtorEq]
        have := firstSplit_some_split pat rest p.1 p.2 hfs
        exact (occurs_cons pat c rest).mpr (Or.inr ⟨p.1, p.2, this⟩)

theorem pyReplaceFuel_irrel (pat repl : List Char) :
    ∀ n s f g, s.length ≤ n → s.length ≤ f → s.length ≤ g →
      pyReplaceFuel pat repl f s = pyReplaceFuel pat repl g s := by
  intro n
  induction n with
  | zero =>
    intro s f g hs _ _
    have : s = [] := List.eq_nil_of_length_eq_zero (Nat.le_zero.mp hs)
    subst this
    cases f <;> cases g <;> rfl
  | succ n ih =>
    intro s f g hs hf hg
    cases s with
    | nil => cases f <;> cases g <;> rfl
    | cons c rest =>
      obtain ⟨f1, rfl⟩ : ∃ f1, f = f1 + 1 := by
        cases f with
        | zero => simp [List.length_cons] at hf
        | succ f1 => exact ⟨f1, rfl⟩
      obtain ⟨g1, rfl⟩ : ∃ g1, g = g1 + 1 := by
        cases g with
        | zero => simp [List.length_cons] at hg
        | succ g1 => exact ⟨g1, rfl⟩
      simp only [List.length_cons, Nat.add_le_add_iff_right] at hs hf hg
      simp only [pyReplaceFuel]
      by_cases hp : pat.isPrefixOf (c :: rest)
      · rw [if_pos hp, if_pos hp]
        have hd : (rest.drop (pat.length - 1)).length ≤ rest.length := by
          rw [List.length_drop]
          omega
        rw [ih (rest.drop (pat.length - 1)) f1 g1 (le_trans hd hs) (le_trans hd hf)
          (le_trans hd hg)]
      · rw [if_neg hp, if_neg hp, ih rest f1 g1 hs hf hg]

theorem pyReplaceCore_eq (pat repl : List Char) (hpat : pat ≠ []) :
    ∀ s, pyReplaceCore pat repl s =
      match firstSplit pat s with
      | none => s
      | some p => p.1 ++ repl ++ pyReplaceCore pat repl p.2 := by
  intro s
  induction s with
  | nil =>
    simp only [pyReplaceCore, firstSplit, isPrefixOf_nil_false pat hpat]
    rfl
  | cons c rest ih =>
    by_cases hp : pat.isPrefixOf (c :: rest)
    · obtain ⟨q, qs, hq⟩ : ∃ q qs, pat = q :: qs := by
        cases pat with
        | nil => exact absurd rfl hpat
        | cons q qs => exact ⟨q, qs, rfl⟩
      subst hq
      simp only [pyReplaceCore, firstSplit, pyReplaceFuel, if_pos hp, List.length_cons,
        Nat.add_sub_cancel, List.drop_succ_cons, List.nil_append]
      rw [pyReplaceFuel_irrel (q :: qs) repl rest.length (List.drop qs.length rest)
        rest.length (List.drop qs.length rest).length (by rw [List.length_drop]; omega)
        (by rw [List.length_drop]; omega) (le_refl _)]
    · simp only [pyReplaceCore, firstSplit, pyReplaceFuel, if_neg hp, List.length_cons]
      have hirr : pyReplaceFuel pat repl rest.length rest
          = pyReplaceFuel pat repl (rest.length) rest := rfl
      rw [show pyReplaceFuel pat repl rest.length rest = pyReplaceCore pat repl rest from rfl] at hirr
      cases hfs : firstSplit pat rest with
      | none =>
        rw [hfs] at ih
        simp only [hfs, Option.map_none']
        rw [show pyReplaceFuel pat repl rest.length rest = pyReplaceCore pat repl rest from rfl, ih]
      | some p =>
        rw [hfs] at ih
        simp only [hfs, Option.map_some']
        rw [show pyReplaceFuel pat repl rest.length rest = pyReplaceCore pat repl rest from rfl, ih]
        simp [List.cons_append, pyReplaceCore]

/-- Claim C7: the stash-restoration step of `convert` (lines 213-215).  For a
placeholder that does not occur literally in the converted text
(`firstSplit = none`, equivalent to non-occurrence) the substitution is a
silent no-op returning the text unchanged; for a placeholder that occurs, the
converted text splits at the leftmost occurrence as `a ++ key ++ b` and the
result substitutes the stashed literal HTML in place of the placeholder
(plain string replacement — the stashed value is never re-parsed), continuing
to the right of the occurrence. -/
theorem c7_stash_restoration (S K V : String) :
    (firstSplit K.data S.data = none → restoreStash S [(K, V)] = S)
    ∧ (firstSplit K.data S.data = none ↔ ¬ Occurs K.data S.data)
    ∧ (K.data ≠ [] → ∀ a b, firstSplit K.data S.data = some (a, b) →
        S.data = a ++ K.data ++ b
        ∧ (restoreStash S [(K, V)]).data =
            a ++ V.data ++ pyReplaceCore K.data V.data b) := by
  refine ⟨?_, firstSplit_none_iff K.data S.data, ?_⟩
  · intro hn
    have hk : K.data ≠ [] := by
      intro hk
      rw [hk] at hn
      cases hd : S.data with
      | nil => rw [hd] at hn; simp [firstSplit, List.isPrefixOf] at hn
      | cons c cs => rw [hd] at hn; simp [firstSplit, List.isPrefixOf] at hn
    have : restoreStash S [(K, V)] = ⟨pyReplaceCore K.data V.data S.data⟩ := by
      simp only [restoreStash, List.foldl_cons, List.foldl_nil, pyReplaceS, pyReplace, if_neg hk]
    rw [this, pyReplaceCore_eq K.data V.data hk S.data, hn]
  · intro hk a b hs
    refine ⟨firstSplit_some_split K.data S.data a b hs, ?_⟩
    have : restoreStash S [(K, V)] = ⟨pyReplaceCore K.data V.data S.data⟩ := by
      simp only [restoreStash, List.foldl_cons, List.foldl_nil, pyReplaceS, pyReplace, if_neg hk]
    rw [this, pyReplaceCore_eq K.data V.data hk S.data, hs]

/-- Witness for C7: a missing placeholder (`"KEY"` does not occur in
`"no match"`) is a silent no-op, and an occurring placeholder (`"KEY"` in
`"pre KEY post"`) is substituted in place. -/
theorem c7_stash_restoration_witness :
    restoreStash "no match" [("KEY", "<img>")] = "no match"
    ∧ ("pre KEY post".data = "pre ".data ++ "KEY".data ++ " post".data
      ∧ (restoreStash "pre KEY post" [("KEY", "<img>")]).data =
          "pre ".data ++ "<img>".data ++ pyReplaceCore "KEY".data "<img>".data " post".data) :=
  ⟨(c7_stash_restoration "no match" "KEY" "<img>").1 (by decide),
   (c7_stash_restoration "pre KEY post" "KEY" "<img>").2.2 (by decide)
     "pre ".data " post".data (by decide)⟩

theorem occurs_cons_of (pat : List Char) (c : Char) (s : List Char) :
    Occurs pat s → Occurs pat (c :: s) := by
  rintro ⟨a, b, rfl⟩
  exact ⟨c :: a, b, rfl⟩

theorem occurs_trans (p m x : List Char) : Occurs p m → Occurs m x → Occurs p x := by
  rintro ⟨a, b, rfl⟩ ⟨u, v, rfl⟩
  exact ⟨u ++ a, b ++ v, by simp⟩

theorem occurs_nil_iff (pat : List Char) : Occurs pat [] ↔ pat = [] := by
  constructor
  · rintro ⟨a, b, h⟩
    rcases List.append_eq_nil.mp h.symm with ⟨h1, h2⟩
    rcases List.append_eq_nil.mp h1 with ⟨_, h3⟩
    exact h3
  · rintro rfl
    exact ⟨[], [], rfl⟩

theorem prefix_through_char (c : Char) :
    ∀ (p : List Char), c ∉ p → ∀ a b, (∃ t, a ++ c :: b = p ++ t) → ∃ w, a = p ++ w := by
  intro p
  induction p with
  | nil => intro _ a b _; exact ⟨a, rfl⟩
  | cons q qr ih =>
    intro hc a b ht
    obtain ⟨t, ht⟩ := ht
    cases a with
    | nil =>
      simp only [List.nil_append, List.cons_append] at ht
      injection ht with h1 h2
      exact absurd (h1 ▸ List.mem_cons_self q qr) hc
    | cons x a' =>
      simp only [List.cons_append] at ht
      injection ht with h1 h2
      obtain ⟨w, hw⟩ := ih (fun hm => hc (List.mem_cons_of_mem q hm)) a' b ⟨t, h2⟩
      exact ⟨w, by rw [h1, hw, List.cons_append]⟩

theorem occurs_append_char (pat : List Char) (c : Char) (hc : c ∉ pat) :
    ∀ a b, Occurs pat (a ++ c :: b) → Occurs pat a ∨ Occurs pat b := by
  intro a
  induction a with
  | nil =>
    intro b h
    rw [List.nil_append] at h
    rcases (occurs_cons pat c b).mp h with ⟨t, ht⟩ | ho
    · cases pat with
      | nil => exact Or.inl ⟨[], [], rfl⟩
      | cons p pr =>
        simp only [List.cons_append] at ht
        injection ht with h1 h2
        exact absurd (h1 ▸ List.mem_cons_self p pr) hc
    · exact Or.inr ho
  | cons x a' ih =>
    intro b h
    rw [List.cons_append] at h
    rcases (occurs_cons pat x (a' ++ c :: b)).mp h with ⟨t, ht⟩ | ho
    · cases pat with
      | nil => exact Or.inl ⟨[], x :: a', rfl⟩
      | cons p pr =>
        simp only [List.cons_append] at ht
        injection ht with h1 h2
        obtain ⟨w, hw⟩ :=
          prefix_through_char c pr (fun hm => hc (List.mem_cons_of_mem p hm)) a' b ⟨t, h2⟩
        exact Or.inl ⟨[], w, by rw [h1, hw, List.nil_append, List.cons_append]⟩
    · rcases ih b ho with h1 | h1
      · exact Or.inl (occurs_cons_of pat x a' h1)
      · exact Or.inr h1

theorem occurs_joinNl (pat : List Char) (hnl : '\n' ∉ pat) (hne : pat ≠ []) :
    ∀ ls, Occurs pat (joinNl ls) → ∃ l ∈ ls, Occurs pat l := by
  intro ls
  induction ls with
  | nil =>
    intro h
    rw [show joinNl [] = [] from rfl] at h
    exact absurd ((occurs_nil_iff pat).mp h) hne
  | cons l ls ih =>
    intro h
    cases ls with
    | nil => exact ⟨l, List.mem_cons_self l [], h⟩
    | cons l2 ls2 =>
      rw [show joinNl (l :: l2 :: ls2) = l ++ '\n' :: joinNl (l2 :: ls2) from rfl] at h
      rcases occurs_append_char pat '\n' hnl l (joinNl (l2 :: ls2)) h with h1 | h1
      · exact ⟨l, List.mem_cons_self l _, h1⟩
      · obtain ⟨m, hm, ho⟩ := ih h1
        exact ⟨m, List.mem_cons_of_mem l hm, ho⟩

theorem splitNlA_fst_sub (x : List Char) : ∃ b, x = (splitNlA x).1 ++ b := by
  induction x with
  | nil => exact ⟨[], rfl⟩
  | cons c rest ih =>
    obtain ⟨b, hb⟩ := ih
    by_cases hc : c = '\n'
    · exact ⟨c :: rest, by simp [splitNlA, hc]⟩
    · exact ⟨b, by simp only [splitNlA, if_neg hc, List.cons_append]; rw [← hb]⟩

theorem splitNl_mem_occurs (x : List Char) : ∀ l ∈ splitNl x, Occurs l x := by
  induction x with
  | nil =>
    intro l hl
    rcases List.mem_cons.mp hl with rfl | h
    · exact ⟨[], [], rfl⟩
    · simp [splitNlA] at h
  | cons c rest ih =>
    intro l hl
    by_cases hc : c = '\n'
    · have hsplit : splitNl (c :: rest) = [] :: splitNl rest := by
        simp [splitNl, splitNlA, hc]
      rw [hsplit] at hl
      rcases List.mem_cons.mp hl with rfl | h
      · exact ⟨[], c :: rest, rfl⟩
      · exact occurs_cons_of l c rest (ih l h)
    · have hsplit : splitNl (c :: rest) = (c :: (splitNlA rest).1) :: (splitNlA rest).2 := by
        simp [splitNl, splitNlA, hc]
      rw [hsplit] at hl
      rcases List.mem_cons.mp hl with rfl | h
      · obtain ⟨b, hb⟩ := splitNlA_fst_sub rest
        exact ⟨[], b, by rw [List.nil_append, List.cons_append, ← hb]⟩
      · have : l ∈ splitNl rest := List.mem_cons_of_mem _ h
        exact occurs_cons_of l c rest (ih l this)

theorem joinNl_splitNl (x : List Char) : joinNl (splitNl x) = x := by
  induction x with
  | nil => rfl
  | cons c rest ih =>
    by_cases hc : c = '\n'
    · have hsplit : splitNl (c :: rest) = [] :: splitNl rest := by
        simp [splitNl, splitNlA, hc]
      rw [hsplit]
      rw [show joinNl ([] :: splitNl rest) = [] ++ '\n' :: joinNl (splitNl rest) from rfl]
      rw [ih, List.nil_append, hc]
    · have hsplit : splitNl (c :: rest) = (c :: (splitNlA rest).1) :: (splitNlA rest).2 := by
        simp [splitNl, splitNlA, hc]
      rw [hsplit]
      cases hts : (splitNlA rest).2 with
      | nil =>
        have : joinNl (splitNl rest) = (splitNlA rest).1 := by
          rw [show splitNl rest = (splitNlA rest).1 :: (splitNlA rest).2 from rfl, hts]
          rfl
        rw [show joinNl [c :: (splitNlA rest).1] = c :: (splitNlA rest).1 from rfl]
        rw [← this, ih]
      | cons t1 ts =>
        have hj : joinNl (splitNl rest) = (splitNlA rest).1 ++ '\n' :: joinNl (t1 :: ts) := by
          rw [show splitNl rest = (splitNlA rest).1 :: (splitNlA rest).2 from rfl, hts]
          rfl
        rw [show joinNl ((c :: (splitNlA rest).1) :: t1 :: ts)
              = (c :: (splitNlA rest).1) ++ '\n' :: joinNl (t1 :: ts) from rfl]
        rw [List.cons_append, ← hj, ih]

theorem dropWhile_head_false (p : Char → Bool) :
    ∀ (l : List Char) c t, List.dropWhile p l = c :: t → p c = false := by
  intro l
  induction l with
  | nil => intro c t h; simp [List.dropWhile] at h
  | cons x xs ih =>
    intro c t h
    by_cases hx : p x
    · rw [List.dropWhile_cons, if_pos hx] at h
      exact ih c t h
    · rw [List.dropWhile_cons, if_neg hx] at h
      injection h with h1 _
      rw [← h1]
      exact Bool.eq_false_iff.mpr hx

theorem dropWhile_fix (p : Char → Bool) (l : List Char) :
    List.dropWhile p (List.dropWhile p l) = List.dropWhile p l := by
  cases hd : List.dropWhile p l with
  | nil => rfl
  | cons c t =>
    rw [List.dropWhile_cons, if_neg]
    rw [dropWhile_head_false p l c t hd]
    simp

theorem pyStrip_sub (l : List Char) : ∃ a b, l = a ++ pyStrip l ++ b := by
  refine ⟨l.takeWhile isPyWs, ((l.dropWhile isPyWs).reverse.takeWhile isPyWs).reverse, ?_⟩
  unfold pyStrip
  have h1 : l = l.takeWhile isPyWs ++ l.dropWhile isPyWs :=
    (List.takeWhile_append_dropWhile isPyWs l).symm
  have h2 : (l.dropWhile isPyWs).reverse =
      (l.dropWhile isPyWs).reverse.takeWhile isPyWs ++ (l.dropWhile isPyWs).reverse.dropWhile isPyWs :=
    (List.takeWhile_append_dropWhile isPyWs (l.dropWhile isPyWs).reverse).symm
  have h3 : l.dropWhile isPyWs =
      ((l.dropWhile isPyWs).reverse.dropWhile isPyWs).reverse
        ++ ((l.dropWhile isPyWs).reverse.takeWhile isPyWs).reverse := by
    calc l.dropWhile isPyWs = (l.dropWhile isPyWs).reverse.reverse := by rw [List.reverse_reverse]
    _ = ((l.dropWhile isPyWs).reverse.takeWhile isPyWs
          ++ (l.dropWhile isPyWs).reverse.dropWhile isPyWs).reverse := by rw [← h2]
    _ = _ := by rw [List.reverse_append]
  rw [List.append_assoc, ← h3, ← h1]

theorem pyStrip_head_sub (l : List Char) : ∃ b, l.dropWhile isPyWs = pyStrip l ++ b := by
  refine ⟨((l.dropWhile isPyWs).reverse.takeWhile isPyWs).reverse, ?_⟩
  unfold pyStrip
  calc l.dropWhile isPyWs = (l.dropWhile isPyWs).reverse.reverse := by rw [List.reverse_reverse]
  _ = ((l.dropWhile isPyWs).reverse.takeWhile isPyWs
        ++ (l.dropWhile isPyWs).reverse.dropWhile isPyWs).reverse := by
        rw [List.takeWhile_append_dropWhile]
  _ = _ := by rw [List.reverse_append]

theorem pyStrip_fix (l : List Char) : pyStrip (pyStrip l) = pyStrip l := by
  have hdrop : List.dropWhile isPyWs (pyStrip l) = pyStrip l := by
    cases hd : pyStrip l with
    | nil => rfl
    | cons c t =>
      obtain ⟨b, hb⟩ := pyStrip_head_sub l
      rw [hd] at hb
      have : isPyWs c = false := dropWhile_head_false isPyWs l c (t ++ b) (by rw [hb]; simp)
      rw [List.dropWhile_cons, if_neg (by rw [this]; simp)]
  show ((List.dropWhile isPyWs (pyStrip l)).reverse.dropWhile isPyWs).reverse = pyStrip l
  rw [hdrop]
  unfold pyStrip
  rw [List.reverse_reverse, dropWhile_fix]

theorem hideMarker_no_newline : '\n' ∉ hideMarker := by decide

theorem hideMarker_ne_nil : hideMarker ≠ [] := by decide

theorem hideLines_no_marker (source : String) :
    ¬ Occurs hideMarker (hideLines source).data := by
  intro h
  have hdata : (hideLines source).data = pyStrip (joinNl
      ((splitNl source.data).filter (fun l => !containsSub hideMarker l))) := rfl
  rw [hdata] at h
  obtain ⟨a, b, hab⟩ := pyStrip_sub (joinNl
      ((splitNl source.data).filter (fun l => !containsSub hideMarker l)))
  have hocc := occurs_trans hideMarker _ _ h ⟨a, b, hab⟩
  obtain ⟨l, hl, ho⟩ :=
    occurs_joinNl hideMarker hideMarker_no_newline hideMarker_ne_nil _ hocc
  have hko := (List.mem_filter.mp hl).2
  have hfs : firstSplit hideMarker l = none := by
    have hcs : containsSub hideMarker l = false := by simpa using hko
    unfold containsSub at hcs
    cases hq : firstSplit hideMarker l with
    | none => rfl
    | some p => rw [hq] at hcs; simp at hcs
  exact (firstSplit_none_iff hideMarker l).mp hfs ho

theorem hideLines_lines_ok (source : String) :
    ∀ l ∈ splitNl (hideLines source).data, containsSub hideMarker l = false := by
  intro l hl
  have ho := splitNl_mem_occurs (hideLines source).data l hl
  have hno : ¬ Occurs hideMarker l := fun hm =>
    hideLines_no_marker source (occurs_trans hideMarker _ _ hm ho)
  have hfs : firstSplit hideMarker l = none := (firstSplit_none_iff hideMarker l).mpr hno
  unfold containsSub
  rw [hfs]
  rfl

theorem pyStrip_hideLines (source : String) :
    pyStrip (hideLines source).data = (hideLines source).data := by
  have hdata : (hideLines source).data = pyStrip (joinNl
      ((splitNl source.data).filter (fun l => !containsSub hideMarker l))) := rfl
  rw [hdata, pyStrip_fix]

theorem hideLines_idem (source : String) :
    hideLines (hideLines source) = hideLines source := by
  have hfil : (splitNl (hideLines source).data).filter (fun l => !containsSub hideMarker l)
      = splitNl (hideLines source).data := by
    apply List.filter_eq_self.mpr
    intro l hl
    rw [hideLines_lines_ok source l hl]
    rfl
  have h1 : hideLines (hideLines source)
      = ⟨pyStrip (joinNl ((splitNl (hideLines source).data).filter
          (fun l => !containsSub hideMarker l)))⟩ := rfl
  rw [h1, hfil, joinNl_splitNl, pyStrip_hideLines]

set_option maxRecDepth 40000 in
/-- Claim C10: `add_source` filters its `source` argument through
`_hide_lines` before assembling anything, for every location (supported or
not) — expressed as invariance of `add_source` under pre-filtering, which
holds because the filtering is performed inside and is idempotent; every
line of the filtered source is free of the `markdown-exec: hide` marker and
the filtered source is a fixed point of stripping (leading/trailing
whitespace removed); the concrete conjuncts show that a marker line of the
source is removed while other lines are kept, and that the `output`
argument is *not* filtered: for all six supported locations an output
containing the marker reaches the assembled result unchanged. -/
theorem c10_hide_lines (source location output language : String) (tabs : String × String)
    (extra : List (String × String)) :
    add_source (hideLines source) location output language tabs extra =
      add_source source location output language tabs extra
    ∧ (∀ l ∈ splitNl (hideLines source).data, containsSub hideMarker l = false)
    ∧ pyStrip (hideLines source).data = (hideLines source).data
    ∧ hideLines "a\nhidden markdown-exec: hide\nb" = "a\nb"
    ∧ ([("console" : String), "above", "below", "material-block", "tabbed-left",
        "tabbed-right"].all
        (fun loc =>
          match add_source "src" loc "OUT markdown-exec: hide OUT" "python" ("S", "R") [] with
          | .ok r => containsSub hideMarker r.data
          | .error _ => false)) = true := by
  refine ⟨?_, hideLines_lines_ok source, pyStrip_hideLines source, by decide, by decide⟩
  unfold add_source
  rw [hideLines_idem]

/-- Witness for C10: the line `"keep"` of the filtered source
`"x markdown-exec: hide\nkeep"` is marker-free. -/
theorem c10_hide_lines_witness : containsSub hideMarker "keep".data = false :=
  (c10_hide_lines "x markdown-exec: hide\nkeep" "above" "o" "python" ("S", "R") []).2.1
    "keep".data (by decide)

theorem decDigits_eq_digits : ∀ (f n : Nat), n ≤ f → decDigits f n = Nat.digits 10 n := by
  intro f
  induction f with
  | zero =>
    intro n hn
    have : n = 0 := Nat.le_zero.mp hn
    subst this
    simp [decDigits]
  | succ f ih =>
    intro n hn
    by_cases h0 : n = 0
    · subst h0
      simp [decDigits]
    · have hpos : 0 < n := Nat.pos_of_ne_zero h0
      rw [show decDigits (f + 1) n = n % 10 :: decDigits f (n / 10) by
        simp [decDigits, h0]]
      have hdiv : n / 10 ≤ f := by
        have := Nat.div_lt_self hpos (by norm_num : 1 < 10)
        omega
      rw [ih (n / 10) hdiv, ← Nat.digits_def' (by norm_num : (1 : Nat) < 10) hpos]

theorem digitChar_inj_lt : ∀ a < 10, ∀ b < 10, Nat.digitChar a = Nat.digitChar b → a = b := by
  decide

theorem map_digitChar_inj :
    ∀ (l1 l2 : List Nat), (∀ x ∈ l1, x < 10) → (∀ x ∈ l2, x < 10) →
      l1.map Nat.digitChar = l2.map Nat.digitChar → l1 = l2 := by
  intro l1
  induction l1 with
  | nil =>
    intro l2 _ _ h
    cases l2 with
    | nil => rfl
    | cons b bs => simp at h
  | cons a as ih =>
    intro l2 h1 h2 h
    cases l2 with
    | nil => simp at h
    | cons b bs =>
      simp only [List.map_cons, List.cons.injEq] at h
      rw [digitChar_inj_lt a (h1 a (List.mem_cons_self a as)) b (h2 b (List.mem_cons_self b bs)) h.1,
        ih bs (fun x hx => h1 x (List.mem_cons_of_mem a hx))
          (fun x hx => h2 x (List.mem_cons_of_mem b hx)) h.2]

theorem decRepr_eq_digits (n : Nat) (hn : n ≠ 0) :
    decRepr n = ((Nat.digits 10 n).map Nat.digitChar).reverse := by
  unfold decRepr
  rw [if_neg hn, decDigits_eq_digits n n (le_refl n)]

theorem decRepr_ne_zero_case (n : Nat) (hn : n ≠ 0) : decRepr n ≠ decRepr 0 := by
  intro h
  rw [decRepr_eq_digits n hn, show decRepr 0 = ['0'] from rfl] at h
  have h' : (Nat.digits 10 n).map Nat.digitChar = ['0'] := by
    have := congrArg List.reverse h
    simpa using this
  have hd : Nat.digits 10 n = [0] := by
    cases hd : Nat.digits 10 n with
    | nil => rw [hd] at h'; simp at h'
    | cons d ds =>
      rw [hd] at h'
      simp only [List.map_cons] at h'
      injection h' with hh1 hh2
      have hds : ds = [] := by
        cases ds with
        | nil => rfl
        | cons x xs => simp at hh2
      have hdl : d < 10 :=
        Nat.digits_lt_base (by norm_num) (by rw [hd]; exact List.mem_cons_self d ds)
      have hd0 : d = 0 :=
        digitChar_inj_lt d hdl 0 (by norm_num) (by rw [hh1]; rfl)
      rw [hds, hd0]
  have hofd := Nat.ofDigits_digits 10 n
  rw [hd] at hofd
  simp [Nat.ofDigits] at hofd
  exact hn hofd.symm

theorem decRepr_inj (m n : Nat) (h : decRepr m = decRepr n) : m = n := by
  by_cases hm : m = 0
  · by_cases hn : n = 0
    · rw [hm, hn]
    · subst hm
      exact absurd h.symm (decRepr_ne_zero_case n hn)
  · by_cases hn : n = 0
    · subst hn
      exact absurd h (decRepr_ne_zero_case m hm)
    · rw [decRepr_eq_digits m hm, decRepr_eq_digits n hn] at h
      have h' := congrArg List.reverse h
      simp only [List.reverse_reverse] at h'
      have hdig := map_digitChar_inj (Nat.digits 10 m) (Nat.digits 10 n)
        (fun x hx => Nat.digits_lt_base (by norm_num) hx)
        (fun x hx => Nat.digits_lt_base (by norm_num) hx) h'
      exact Nat.digits_inj_iff.mp hdig

theorem execToken_inj (m n : Nat) (h : m ≠ n) : execToken m ≠ execToken n := by
  intro he
  apply h
  apply decRepr_inj
  have hd : "exec-".data ++ (decRepr m ++ "--".data)
      = "exec-".data ++ (decRepr n ++ "--".data) := by
    have := congrArg String.data he
    simpa [execToken] using this
  exact List.append_cancel_right (List.append_cancel_left hd)

theorem modifyAt_length (f : Renderer → Renderer) :
    ∀ (i : Nat) (l : List Renderer), (modifyAt f i l).length = l.length := by
  intro i l
  induction l generalizing i with
  | nil => cases i <;> rfl
  | cons x xs ih =>
    cases i with
    | zero => rfl
    | succ j => simp [modifyAt, ih j]

theorem modifyAt_get (f : Renderer → Renderer) :
    ∀ (l : List Renderer) (i : Nat), (modifyAt f i l).get? i = (l.get? i).map f := by
  intro l
  induction l with
  | nil => intro i; cases i <;> rfl
  | cons x xs ih =>
    intro i
    cases i with
    | zero => rfl
    | succ j => simpa [modifyAt] using ih j

theorem getMd_fst (s : ConvState) : (getMd s).1 = s.level := by
  unfold getMd
  split <;> rfl

theorem getMd_counter (s : ConvState) : (getMd s).2.counter = s.counter := by
  unfold getMd
  split <;> rfl

theorem getMd_level (s : ConvState) : (getMd s).2.level = s.level := by
  unfold getMd
  split <;> rfl

theorem getMd_headingsRef (s : ConvState) : (getMd s).2.headingsRef = s.headingsRef := by
  unfold getMd
  split <;> rfl

theorem getMd_len (s : ConvState) : s.level < (getMd s).2.mdStack.length := by
  unfold getMd
  split
  · assumption
  · rename_i h
    simp only [List.length_append, List.length_replicate]
    omega

theorem preConvert_fst (s : ConvState) : (preConvert s).1 = s.level := by
  simp [preConvert, getMd_fst]

theorem preConvert_tok (s : ConvState) : (preConvert s).2.1 = execToken s.counter := by
  simp [preConvert, getMd_counter]

theorem preConvert_level (s : ConvState) : (preConvert s).2.2.level = s.level + 1 := by
  simp [preConvert, setPref, getMd_level]

theorem preConvert_counter (s : ConvState) : (preConvert s).2.2.counter = s.counter + 1 := by
  simp [preConvert, setPref, getMd_counter]

theorem preConvert_len (s : ConvState) : s.level < (preConvert s).2.2.mdStack.length := by
  simp only [preConvert, setPref]
  simp only [modifyAt_length]
  exact getMd_len s

/-- Claim C5: when the underlying `md.convert` raises, `convert` propagates
the very same error to the caller, the nesting depth counter `_level` is
restored to its value at entry, and the `id_prefix` of the namespacing
transform of the renderer used for this call (the one at stack index
`s.level`) is reset to the empty string.  The hypotheses say that the oracle
raises `e`, leaving a state whose `_level` it restored itself (nested calls
balance their own depth bookkeeping) and whose renderer stack it did not
shrink (renderers are only ever appended). -/
theorem c5_error_propagation (s : ConvState) (text : String)
    (stash : List (String × String)) (o : Oracle) (e : String) (s5 : ConvState)
    (ho : o text (preConvert s).2.1 (preConvert s).2.2 = (.error e, s5))
    (hlvl : s5.level = (preConvert s).2.2.level)
    (hstk : (preConvert s).2.2.mdStack.length ≤ s5.mdStack.length) :
    (convert o text stash s).1 = .error e
    ∧ (convert o text stash s).2.1.level = s.level
    ∧ prefAt (convert o text stash s).2.1 s.level = some "" := by
  have hres : convert o text stash s =
      (.error e, setPref { s5 with level := s5.level - 1 } (preConvert s).1 "",
        (preConvert s).2.1) := by
    simp only [convert]
    rw [ho]
  rw [hres]
  refine ⟨rfl, ?_, ?_⟩
  · simp [setPref, hlvl, preConvert_level]
  · have hlen : s.level < s5.mdStack.length := lt_of_lt_of_le (preConvert_len s) hstk
    simp only [prefAt, setPref, preConvert_fst, modifyAt_get]
    cases hg : s5.mdStack.get? s.level with
    | none =>
      rw [List.get?_eq_none] at hg
      omega
    | some r => simp

/-- Witness for C5: a failing oracle on the fresh converter state. -/
theorem c5_error_propagation_witness :
    (convert (fun _ _ st => (.error "boom", st)) "t" [] initState).1 = .error "boom"
    ∧ (convert (fun _ _ st => (.error "boom", st)) "t" [] initState).2.1.level = initState.level
    ∧ prefAt (convert (fun _ _ st => (.error "boom", st)) "t" [] initState).2.1
        initState.level = some "" :=
  c5_error_propagation initState "t" [] (fun _ _ st => (.error "boom", st)) "boom"
    (preConvert initState).2.2 rfl rfl (le_refl _)

/-- Claim C6: every `convert` invocation installs the namespace token
`f"exec-{self._counter}--"` built from the current counter value
(observable as the third component of the result), the counter strictly
increases across the call (for any oracle that never decreases it — nested
invocations only increment it further), and tokens built from different
counter values are different strings; hence any two distinct invocations in
one render, sibling or nested, receive distinct tokens.  The last three
conjuncts evaluate a concretely nested scenario: an oracle that re-enters
`convert` (`outerOracle`) yields `"exec-1--"` for the inner invocation while
the outer invocation holds `"exec-0--"`, and the two differ. -/
theorem c6_namespace_tokens :
    (∀ m n : Nat, m ≠ n → execToken m ≠ execToken n)
    ∧ (∀ (o : Oracle) (text : String) (stash : List (String × String)) (s : ConvState),
        (convert o text stash s).2.2 = execToken s.counter)
    ∧ (∀ (o : Oracle), (∀ t p st, st.counter ≤ (o t p st).2.counter) →
        ∀ (text : String) (stash : List (String × String)) (s : ConvState),
          s.counter + 1 ≤ (convert o text stash s).2.1.counter)
    ∧ (convert outerOracle "t" [] initState).2.2 = execToken 0
    ∧ (convert outerOracle "t" [] initState).1 = .ok (execToken 1)
    ∧ execToken 0 ≠ execToken 1 := by
  refine ⟨execToken_inj, ?_, ?_, rfl, rfl, by decide⟩
  · intro o text stash s
    simp only [convert]
    rcases ho : o text (preConvert s).2.1 (preConvert s).2.2 with ⟨res, s5⟩
    cases res with
    | error e => simp [preConvert_tok]
    | ok v =>
      rcases v with ⟨html, hs⟩
      simp [preConvert_tok]
  · intro o hmono text stash s
    have hbase : s.counter + 1 ≤ (o text (preConvert s).2.1 (preConvert s).2.2).2.counter := by
      have := hmono text (preConvert s).2.1 (preConvert s).2.2
      rw [preConvert_counter] at this
      exact this
    simp only [convert]
    rcases ho : o text (preConvert s).2.1 (preConvert s).2.2 with ⟨res, s5⟩
    rw [ho] at hbase
    cases res with
    | error e => simpa [setPref] using hbase
    | ok v =>
      rcases v with ⟨html, hs⟩
      simpa [setPref, storeApp, allocRef] using hbase

/-- Witness for C6: concrete instantiations discharging the hypotheses
(distinct counters 0 and 5; a pure oracle, which trivially never decreases
the counter). -/
theorem c6_namespace_tokens_witness :
    execToken 0 ≠ execToken 5
    ∧ (convert (fun _ _ st => (.ok ("h", []), st)) "x" [] initState).2.2 = execToken 0
    ∧ initState.counter + 1 ≤
        (convert (fun _ _ st => (.ok ("h", []), st)) "x" [] initState).2.1.counter :=
  ⟨c6_namespace_tokens.1 0 5 (by decide),
   c6_namespace_tokens.2.1 (fun _ _ st => (.ok ("h", []), st)) "x" [] initState,
   c6_namespace_tokens.2.2.1 (fun _ _ st => (.ok ("h", []), st))
     (fun _ _ _ => Nat.le_refl _) "x" [] initState⟩

/-- Claim C1: evaluation of two consecutive top-level `convert` calls from a
fresh converter, over an oracle that harvests one heading per call (`hA` for
the first, `hB` for the second).  After the second call, the host table maps
the second call's output `"B"` to the *empty* heading list — not to `[hB]` as
the claim requires — and the first call's recorded entry has mutated to
`[hA, hB]`, now containing a heading harvested during the second call: the
`headings` property rebinds `self._headings` to a fresh list when draining,
but the cached shadow renderer keeps appending to the list object it captured
at creation, which is exactly the list recorded for the first call. -/
theorem c1_output_association :
    lookupTable c1run "B" = some []
    ∧ lookupTable c1run "A" = some [hA, hB]
    ∧ (convert oracleAB "a" [] initState).1 = .ok "A"
    ∧ (convert oracleAB "b" [] (convert oracleAB "a" [] initState).2.1).1 = .ok "B"
    ∧ lookupTable (convert oracleAB "a" [] initState).2.1 "A" = some [hA] := by
  exact ⟨rfl, rfl, rfl, rfl, rfl⟩
